import Mathlib

/-!
Verification development for the `xrdsimpy` X-ray powder-diffraction simulator
(`xrd.py`).  The Python source is shallowly embedded: floating-point numbers
become real numbers, complex amplitudes become `ℂ`, numpy arrays of indices
become lists of integer triples, and the stateful accumulation loops become
folds over lists.  The atomic form-factor data file (`form.txt`) is external
data, not code; it is modelled as a function from the element symbol to its
nine tabulated coefficients carried by the model.
-/

open Classical

noncomputable section

namespace XRDsim

/-- A 3-component real vector (one row of a numpy 3×3 array). -/
abbrev Vec3 := Fin 3 → ℝ

/-- Euclidean norm of a 3-vector, as computed by `numpy.linalg.norm`. -/
def vnorm (v : Vec3) : ℝ := Real.sqrt (v 0 ^ 2 + v 1 ^ 2 + v 2 ^ 2)

/-- The data held by an `XRD` object after construction: the real-space
lattice (rows `a`, `b`, `c`), the atom list (element symbol and fractional
position), the resolved numeric wavelength, and the form-factor table
(the contents of `form.txt`, modelled as a total function since every
claim concerns elements present in the table). -/
structure XRDModel where
  lattice : Matrix (Fin 3) (Fin 3) ℝ
  atoms : List (String × Vec3)
  wavelength : ℝ
  form : String → Fin 9 → ℝ

/-- `self.rec_lattice = np.linalg.inv(lattice).T * np.pi * 2`. -/
def rec_lattice (m : XRDModel) : Matrix (Fin 3) (Fin 3) ℝ :=
  (2 * Real.pi) • (m.lattice⁻¹).transpose

/-- Row `i` of the reciprocal lattice (`k_1, k_2, k_3 = self.rec_lattice`). -/
def krow (m : XRDModel) (i : Fin 3) : Vec3 := fun j => rec_lattice m i j

/-- The fixed anode table of `XRD.get_wavelength`. -/
def xray_wavelength : List (String × ℝ) :=
  [("CuKa1", 1.5405981), ("CuKa2", 1.54443), ("CuKb1", 1.39225),
   ("WLa1", 1.47642), ("WLa2", 1.48748)]

/-- `XRD.get_wavelength`: dictionary lookup; a missing key is the Python
`KeyError`, modelled as `none`. -/
def get_wavelength (anode : String) : Option ℝ := xray_wavelength.lookup anode

/-- The wavelength argument of the constructor: either a value that parses
as a real number (`isfloat` succeeds) or a remaining string treated as an
anode name. -/
inductive WavelengthSpec where
  | num (x : ℝ)
  | name (s : String)

/-- Wavelength resolution in `XRD.__init__`: a parsed number is used
directly, otherwise the anode table is consulted. -/
def resolveWavelength : WavelengthSpec → Option ℝ
  | .num x => some x
  | .name s => get_wavelength s

/-- `XRD.__init__`: builds the model; a failed anode lookup is fatal
(no model is produced). -/
def mkXRD (lattice : Matrix (Fin 3) (Fin 3) ℝ) (atoms : List (String × Vec3))
    (form : String → Fin 9 → ℝ) (w : WavelengthSpec) : Option XRDModel :=
  (resolveWavelength w).map (fun wl => ⟨lattice, atoms, wl, form⟩)

/-- `xrange(-max_index, max_index + 1)` as a list of integers. -/
def rangeList (m : ℤ) : List ℤ :=
  (List.range (2 * m + 1).toNat).map (fun (i : ℕ) => -m + (i : ℤ))

/-- `itertools.product(xrange(-m, m+1), repeat=3)`: `h` is the outer index,
`k` the middle, `l` the inner, each ascending. -/
def cubeList (m : ℤ) : List (ℤ × ℤ × ℤ) :=
  (rangeList m).flatMap (fun h =>
    (rangeList m).flatMap (fun k =>
      (rangeList m).map (fun l => (h, k, l))))

/-- `sin_twotheta = wavelength * (norm(q) / 4. / np.pi)` with
`q = h * k_1 + k * k_2 + l * k_3`. -/
def sinTwoTheta (wavelength : ℝ) (k1 k2 k3 : Vec3) (t : ℤ × ℤ × ℤ) : ℝ :=
  wavelength *
    (vnorm (fun j => (t.1 : ℝ) * k1 j + (t.2.1 : ℝ) * k2 j + (t.2.2 : ℝ) * k3 j)
      / 4 / Real.pi)

/-- `MAX_INDEX = 5`. -/
def MAX_INDEX : ℤ := 5

/-- The automatically derived enumeration bound of `get_kvec_list`:
`int(np.ceil(1. / wavelength / norm(k_i) * 4. * np.pi))` per axis, the
maximum over the axes, capped at `MAX_INDEX`. -/
def autoBound (wavelength : ℝ) (k1 k2 k3 : Vec3) : ℤ :=
  min MAX_INDEX
    (max (max ⌈1 / wavelength / vnorm k1 * 4 * Real.pi⌉
              ⌈1 / wavelength / vnorm k2 * 4 * Real.pi⌉)
         ⌈1 / wavelength / vnorm k3 * 4 * Real.pi⌉)

/-- The bound `get_kvec_list` actually enumerates with.  Python's
`if not max_index:` treats both `None` and `0` as falsy, so a supplied
bound of `0` also triggers auto-derivation. -/
def effBound (wavelength : ℝ) (k1 k2 k3 : Vec3) (maxIndex : Option ℤ) : ℤ :=
  match maxIndex with
  | none => autoBound wavelength k1 k2 k3
  | some b => if b = 0 then autoBound wavelength k1 k2 k3 else b

/-- `XRD.get_kvec_list`: enumerate the cube and keep the triples with
`-1 <= sin_twotheta <= 1`, in enumeration order. -/
def get_kvec_list (wavelength : ℝ) (k1 k2 k3 : Vec3) (maxIndex : Option ℤ) :
    List (ℤ × ℤ × ℤ) :=
  (cubeList (effBound wavelength k1 k2 k3 maxIndex)).filter
    (fun t => decide (-1 ≤ sinTwoTheta wavelength k1 k2 k3 t ∧
                      sinTwoTheta wavelength k1 k2 k3 t ≤ 1))

/-- The candidate list `get_xrd` iterates over:
`self.get_kvec_list(k_1, k_2, k_3)` with the default `max_index=None`. -/
def kvecListOf (m : XRDModel) : List (ℤ × ℤ × ℤ) :=
  get_kvec_list m.wavelength (krow m 0) (krow m 1) (krow m 2) none

/-- The 4-Gaussian atomic form factor evaluated from one table line
`a1 b1 a2 b2 a3 b3 a4 b4 c` (indices 0..8). -/
def atomFormFactor (p : Fin 9 → ℝ) (y : ℝ) : ℝ :=
  p 0 * Real.exp (-p 1 * y ^ 2) + p 2 * Real.exp (-p 3 * y ^ 2) +
  p 4 * Real.exp (-p 5 * y ^ 2) + p 6 * Real.exp (-p 7 * y ^ 2) + p 8

/-- `dot(pos, plane)` for a fractional position and an integer plane. -/
def dotPosPlane (pos : Vec3) (t : ℤ × ℤ × ℤ) : ℝ :=
  pos 0 * (t.1 : ℝ) + pos 1 * (t.2.1 : ℝ) + pos 2 * (t.2.2 : ℝ)

/-- `q = np.dot([h, k, l], self.rec_lattice)`. -/
def qvec (m : XRDModel) (t : ℤ × ℤ × ℤ) : Vec3 :=
  fun j => (t.1 : ℝ) * rec_lattice m 0 j + (t.2.1 : ℝ) * rec_lattice m 1 j +
    (t.2.2 : ℝ) * rec_lattice m 2 j

/-- The list `s_factor_list` built for one candidate plane: the outer loop
runs over the distinct element symbols (`elements = set(...)`; a Python
set iterates in unspecified order, modelled by `dedup`, and the complex
sum taken later is order-independent), the inner loop over the atoms of
that element; each contribution is
`atom_form * np.exp(2j * np.pi * dot(pos, plane))`. -/
def sFactorList (m : XRDModel) (t : ℤ × ℤ × ℤ) (y : ℝ) : List ℂ :=
  ((m.atoms.map Prod.fst).dedup).flatMap (fun element =>
    (m.atoms.filter (fun atom => decide (atom.1 = element))).map (fun atom =>
      ((atomFormFactor (m.form element) y : ℝ) : ℂ) *
        Complex.exp (2 * Complex.I * (Real.pi : ℂ) * ((dotPosPlane atom.2 t : ℝ) : ℂ))))

/-- One iteration of the main loop of `XRD.get_xrd` for a candidate triple:
`none` when the iteration appends nothing (the Bragg re-check fails and the
value is merely printed, or `theta` is exactly `0` or `pi/2` and the loop
`continue`s), otherwise the emitted record `(h, k, l, twotheta, intensity)`
with the triple kept as the first component. -/
def xrdStep (m : XRDModel) (t : ℤ × ℤ × ℤ) : Option ((ℤ × ℤ × ℤ) × ℝ × ℝ) :=
  let y := vnorm (qvec m t) / 4 / Real.pi
  if -1 ≤ m.wavelength * y ∧ m.wavelength * y ≤ 1 then
    let theta := Real.arcsin (m.wavelength * y)
    if theta = Real.pi / 2 ∨ theta = 0 then none
    else
      let lp_factor := (1 + Real.cos (theta * 2) ^ 2) /
        (8 * Real.sin theta ^ 2 * Real.cos theta)
      let inten := Complex.abs (sFactorList m t y).sum ^ 2 * lp_factor
      some (t, 2 * 180 / Real.pi * theta, inten)
  else none

/-- `XRD.get_xrd`: the reflection records `(h, k, l, twotheta, inten)`
appended to `inten_profile`, in candidate order. -/
def get_xrd (m : XRDModel) : List ((ℤ × ℤ × ℤ) × ℝ × ℝ) :=
  (kvecListOf m).filterMap (xrdStep m)

/-- `self.twotheta_list`: appended in the same iterations as the profile. -/
def twotheta_list (m : XRDModel) : List ℝ :=
  (get_xrd m).map (fun r => r.2.1)

/-- `self.intensity_list`: appended in the same iterations as the profile. -/
def intensity_list (m : XRDModel) : List ℝ :=
  (get_xrd m).map (fun r => r.2.2)

/-- One iteration of `sum_intensity`: look for the first already-merged
`x` within `tolerance` (`np.where(abs(new_x_list - x_value) <= tolerance)[0]`),
add the intensity there if found, otherwise append a new entry to both
accumulator lists. -/
def mergeStep (tolerance : ℝ) (acc : List ℝ × List ℝ) (xy : ℝ × ℝ) :
    List ℝ × List ℝ :=
  match acc.1.findIdx? (fun x => decide (|x - xy.1| ≤ tolerance)) with
  | some i => (acc.1, acc.2.set i (acc.2.getD i 0 + xy.2))
  | none => (acc.1 ++ [xy.1], acc.2 ++ [xy.2])

/-- `sum_intensity(x_list, y_list, tolerance=1E-5)` (identical helper in
`plot` and `get_dspacing`): the entries are scanned in order (`enumerate`),
pairing `x_list[i]` with `y_list[i]`. -/
def sum_intensity (tolerance : ℝ) (x_list y_list : List ℝ) :
    List ℝ × List ℝ :=
  (x_list.zip y_list).foldl (mergeStep tolerance) ([], [])

/-- Python's `max` over a list; the empty case (a `ValueError` in Python)
is given the junk value `0`. -/
def listMax : List ℝ → ℝ
  | [] => 0
  | x :: xs => xs.foldl max x

/-- `normalize(y_list, max_value=100.)`: `y_list / max(y_list) * max_value`. -/
def normalize (y_list : List ℝ) (max_value : ℝ) : List ℝ :=
  y_list.map (fun y => y / listMax y_list * max_value)

/-- The merged pattern used by both `plot` and `get_dspacing`:
`sum_intensity(self.twotheta_list, self.intensity_list)` at the default
tolerance `1E-5`. -/
def mergedPattern (m : XRDModel) : List ℝ × List ℝ :=
  sum_intensity 1e-5 (twotheta_list m) (intensity_list m)

/-- `np.argsort(y_list)` (ascending indices).  numpy's default quicksort
leaves the relative order of equal keys unspecified; the embedding fixes
the stable choice. -/
def argsortR (ys : List ℝ) : List ℕ :=
  (List.range ys.length).insertionSort (fun i j => ys.getD i 0 ≤ ys.getD j 0)

/-- `np.sort(y_list)[::-1]`: the intensities in descending order. -/
def sortedDesc (ys : List ℝ) : List ℝ :=
  (ys.insertionSort (· ≤ ·)).reverse

/-- `x_list_sort` of `get_dspacing`: `x_list` reordered by
`np.argsort(y_list)` and then reversed. -/
def xSortedDesc (xs ys : List ℝ) : List ℝ :=
  ((argsortR ys).map (fun i => xs.getD i 0)).reverse

/-- The text artifact written by `get_dspacing`: the header line and one
`(intensity, two_theta, d_spacing)` row per output line. -/
structure DSpacingOut where
  header : String
  rows : List (ℝ × ℝ × ℝ)

/-- `XRD.get_dspacing`: merge, normalize, sort by intensity (descending),
compute `d = wavelength / (2.0 * np.sin(x * np.pi / 360))` per row, and
emit the table. -/
def get_dspacing (m : XRDModel) : DSpacingOut :=
  let xy := mergedPattern m
  let ysn := normalize xy.2 100
  ⟨"intensity two_theta d_spacing",
    List.zipWith
      (fun yv xv => (yv, xv, m.wavelength / (2 * Real.sin (xv * Real.pi / 360))))
      (sortedDesc ysn) (xSortedDesc xy.1 ysn)⟩

/-- Modelled from the spec (claim side): `y = |q| / (4π)` for a plane. -/
def specY (m : XRDModel) (t : ℤ × ℤ × ℤ) : ℝ :=
  vnorm (qvec m t) / (4 * Real.pi)

/-- Modelled from the spec (claim side): `theta = arcsin(wavelength * y)`. -/
def specTheta (m : XRDModel) (t : ℤ × ℤ × ℤ) : ℝ :=
  Real.arcsin (m.wavelength * specY m t)

/-- Modelled from the spec (claim side): the Lorentz-polarization factor
`(1 + cos(2 theta)^2) / (8 sin(theta)^2 cos(theta))`. -/
def specLP (theta : ℝ) : ℝ :=
  (1 + Real.cos (2 * theta) ^ 2) / (8 * Real.sin theta ^ 2 * Real.cos theta)

/-- Modelled from the spec (claim side): the structure factor as a single
sum over every atom of `f(element(atom), y) * exp(2 pi i dot(pos, [h,k,l]))`. -/
def specStructFactor (m : XRDModel) (t : ℤ × ℤ × ℤ) : ℂ :=
  (m.atoms.map (fun atom =>
    ((atomFormFactor (m.form atom.1) (specY m t) : ℝ) : ℂ) *
      Complex.exp (2 * (Real.pi : ℂ) * Complex.I * ((dotPosPlane atom.2 t : ℝ) : ℂ)))).sum

/-- Modelled from the spec (claim side of C4): the merge as a linear scan
carrying the merged peaks as `(two_theta, intensity)` pairs. -/
def mergePeaks (tolerance : ℝ) (merged : List (ℝ × ℝ)) :
    List (ℝ × ℝ) → List (ℝ × ℝ)
  | [] => merged
  | e :: rest =>
    match merged.findIdx? (fun p => decide (|p.1 - e.1| ≤ tolerance)) with
    | some i =>
      mergePeaks tolerance
        (merged.set i ((merged.getD i (0, 0)).1, (merged.getD i (0, 0)).2 + e.2)) rest
    | none => mergePeaks tolerance (merged ++ [e]) rest

/-- The enumeration order of `itertools.product`: `h` strictly first, then
`k`, then `l` (lexicographic order on the triple). -/
def hklLt (t s : ℤ × ℤ × ℤ) : Prop :=
  t.1 < s.1 ∨ (t.1 = s.1 ∧ (t.2.1 < s.2.1 ∨ (t.2.1 = s.2.1 ∧ t.2.2 < s.2.2)))

/-- The form-factor table used by the concrete witness models: every
element gets the constant curve `f ≡ 5` (all Gaussian amplitudes zero,
`c = 5`). -/
def formC : String → Fin 9 → ℝ := fun _ i => if i = 8 then 5 else 0

/-- Witness model: identity lattice, a single atom at the origin,
wavelength `1`. -/
def modelA : XRDModel := ⟨1, [("X", fun _ => 0)], 1, formC⟩

/-- Witness model: identity lattice, a single atom at the origin, and a
wavelength (`4π`) so large that only `(0,0,0)` passes the Bragg filter. -/
def modelB : XRDModel := ⟨1, [("X", fun _ => 0)], 4 * Real.pi, formC⟩

lemma lookup_eq_none_of_not_mem_keys (s : String) (l : List (String × ℝ))
    (h : s ∉ l.map Prod.fst) : l.lookup s = none := by
  induction l with
  | nil => rfl
  | cons kv tl ih =>
    simp only [List.map_cons, List.mem_cons, not_or] at h
    obtain ⟨h1, h2⟩ := h
    obtain ⟨k, v⟩ := kv
    have hk : (s == k) = false := beq_eq_false_iff_ne.2 h1
    simp [List.lookup_cons, hk, ih h2]

/-- C9: a wavelength specifier that parses as a real number is used directly;
a non-numeric specifier is looked up in the fixed anode table, and an unknown
anode name is a fatal key-not-found error: no model is constructed. -/
theorem xrd_c9 (lattice : Matrix (Fin 3) (Fin 3) ℝ) (atoms : List (String × Vec3))
    (form : String → Fin 9 → ℝ) :
    (∀ x : ℝ, mkXRD lattice atoms form (.num x) = some ⟨lattice, atoms, x, form⟩) ∧
    mkXRD lattice atoms form (.name "CuKa1") = some ⟨lattice, atoms, 1.5405981, form⟩ ∧
    mkXRD lattice atoms form (.name "CuKa2") = some ⟨lattice, atoms, 1.54443, form⟩ ∧
    mkXRD lattice atoms form (.name "CuKb1") = some ⟨lattice, atoms, 1.39225, form⟩ ∧
    mkXRD lattice atoms form (.name "WLa1") = some ⟨lattice, atoms, 1.47642, form⟩ ∧
    mkXRD lattice atoms form (.name "WLa2") = some ⟨lattice, atoms, 1.48748, form⟩ ∧
    (∀ s : String, s ∉ xray_wavelength.map Prod.fst →
      mkXRD lattice atoms form (.name s) = none) := by
  refine ⟨fun x => rfl, rfl, rfl, rfl, rfl, rfl, fun s hs => ?_⟩
  simp only [mkXRD, resolveWavelength, get_wavelength]
  rw [lookup_eq_none_of_not_mem_keys s _ hs]
  rfl

/-- Witness for C9 at concrete inputs: a numeric specifier is used verbatim
and an unknown anode name yields no model. -/
theorem xrd_c9_witness :
    mkXRD 1 [] formC (.num 2) = some ⟨1, [], 2, formC⟩ ∧
    mkXRD 1 [] formC (.name "MoKa1") = none :=
  ⟨(xrd_c9 1 [] formC).1 2, (xrd_c9 1 [] formC).2.2.2.2.2.2 "MoKa1" (by decide)⟩

lemma init_le_foldl_max : ∀ (xs : List ℝ) (a : ℝ), a ≤ xs.foldl max a := by
  intro xs
  induction xs with
  | nil => intro a; simp
  | cons x t ih =>
    intro a
    calc a ≤ max a x := le_max_left a x
    _ ≤ t.foldl max (max a x) := ih (max a x)

lemma mem_le_foldl_max : ∀ (xs : List ℝ) (a y : ℝ), y ∈ xs → y ≤ xs.foldl max a := by
  intro xs
  induction xs with
  | nil => intro a y hy; simp at hy
  | cons x t ih =>
    intro a y hy
    rcases List.mem_cons.1 hy with rfl | hy
    · calc y ≤ max a y := le_max_right a y
      _ ≤ t.foldl max (max a y) := init_le_foldl_max t (max a y)
    · exact ih (max a x) y hy

lemma foldl_max_mem : ∀ (xs : List ℝ) (a : ℝ), xs.foldl max a ∈ a :: xs := by
  intro xs
  induction xs with
  | nil => intro a; simp
  | cons x t ih =>
    intro a
    rw [List.foldl_cons]
    rcases List.mem_cons.1 (ih (max a x)) with h | h
    · rw [h]
      rcases max_choice a x with hm | hm
      · rw [hm]; exact List.mem_cons_self _ _
      · rw [hm]; exact List.mem_cons_of_mem _ (List.mem_cons_self _ _)
    · exact List.mem_cons_of_mem _ (List.mem_cons_of_mem _ h)

lemma le_listMax (ys : List ℝ) (y : ℝ) (hy : y ∈ ys) : y ≤ listMax ys := by
  cases ys with
  | nil => simp at hy
  | cons x t =>
    rcases List.mem_cons.1 hy with rfl | hy
    · exact init_le_foldl_max t y
    · exact mem_le_foldl_max t x y hy

lemma listMax_mem (ys : List ℝ) (h : ys ≠ []) : listMax ys ∈ ys := by
  cases ys with
  | nil => exact absurd rfl h
  | cons x t => exact foldl_max_mem t x

/-- C5: for a non-empty merged intensity list with positive maximum,
normalization makes the maximum of the output exactly 100 and every
output value at most 100. -/
theorem xrd_c5 (ys : List ℝ) (h1 : ys ≠ []) (h2 : 0 < listMax ys) :
    listMax (normalize ys 100) = 100 ∧ ∀ v ∈ normalize ys 100, v ≤ 100 := by
  have hM : listMax ys ≠ 0 := ne_of_gt h2
  have hub : ∀ v ∈ normalize ys 100, v ≤ 100 := by
    intro v hv
    obtain ⟨y, hy, rfl⟩ := List.mem_map.1 hv
    have hy' : y ≤ listMax ys := le_listMax ys y hy
    have : y / listMax ys ≤ 1 := (div_le_one h2).2 hy'
    nlinarith
  have hne : normalize ys 100 ≠ [] := by
    simp only [normalize, ne_eq, List.map_eq_nil_iff]
    exact h1
  have h100 : (100 : ℝ) ∈ normalize ys 100 := by
    have : listMax ys / listMax ys * 100 = 100 := by
      rw [div_self hM]; ring
    simpa [normalize, this] using
      List.mem_map_of_mem (fun y => y / listMax ys * 100) (listMax_mem ys h1)
  exact ⟨le_antisymm (hub _ (listMax_mem _ hne)) (le_listMax _ _ h100), hub⟩

/-- Witness for C5 at a concrete list: `[2, 4]` normalizes to `[50, 100]`,
whose maximum is exactly 100. -/
theorem xrd_c5_witness :
    listMax (normalize [2, 4] 100) = 100 ∧ ∀ v ∈ normalize [2, 4] 100, v ≤ 100 :=
  xrd_c5 [2, 4] (List.cons_ne_nil 2 [4]) (by norm_num [listMax])

lemma findIdx?_shift {α : Type _} (p : α → Bool) :
    ∀ (l : List α) (i : ℕ), l.findIdx? p (i + 1) = (l.findIdx? p i).map (· + 1) := by
  intro l
  induction l with
  | nil => intro i; rfl
  | cons x xs ih =>
    intro i
    by_cases h : p x = true
    · simp [List.findIdx?_cons, h]
    · simp only [List.findIdx?_cons, h, if_false]
      rw [ih (i + 1), ih i]
      simp [Option.map_map]

lemma findIdx?_cons_zero {α : Type _} (p : α → Bool) (x : α) (xs : List α) :
    (x :: xs).findIdx? p = if p x then some 0 else (xs.findIdx? p).map (· + 1) := by
  by_cases h : p x = true
  · simp [List.findIdx?_cons, h]
  · simp only [List.findIdx?_cons, h, if_false]
    exact findIdx?_shift p xs 0

lemma findIdx?_map {α β : Type _} (f : α → β) (p : β → Bool) :
    ∀ l : List α, (l.map f).findIdx? p = l.findIdx? (fun a => p (f a)) := by
  intro l
  induction l with
  | nil => rfl
  | cons x xs ih =>
    rw [List.map_cons, findIdx?_cons_zero, findIdx?_cons_zero, ih]

lemma findIdx?_some_bound {α : Type _} (p : α → Bool) (d : α) :
    ∀ (l : List α) (i : ℕ), l.findIdx? p = some i →
      i < l.length ∧ p (l.getD i d) = true := by
  intro l
  induction l with
  | nil => intro i h; exact absurd h (by simp)
  | cons x xs ih =>
    intro i h
    rw [findIdx?_cons_zero] at h
    by_cases hx : p x = true
    · rw [if_pos hx] at h
      obtain rfl : (0 : ℕ) = i := Option.some.inj h
      exact ⟨Nat.succ_pos _, hx⟩
    · rw [if_neg hx] at h
      obtain ⟨j, hj, rfl⟩ := Option.map_eq_some'.1 h
      obtain ⟨hlt, hp⟩ := ih j hj
      exact ⟨Nat.succ_lt_succ hlt, hp⟩

lemma set_getElem_self_eq {α : Type _} (l : List α) (i : ℕ) (h : i < l.length) :
    l.set i l[i] = l := by
  apply List.ext_getElem (by simp)
  intro n h1 h2
  rw [List.getElem_set]
  split
  · next heq => subst heq; rfl
  · rfl

lemma set_getD_self {α : Type _} (l : List α) (i : ℕ) (d : α) (h : i < l.length) :
    l.set i (l.getD i d) = l := by
  rw [List.getD_eq_getElem _ _ h]
  exact set_getElem_self_eq l i h

lemma mergePeaks_foldl (tol : ℝ) :
    ∀ (L acc : List (ℝ × ℝ)),
      L.foldl (mergeStep tol) (acc.map Prod.fst, acc.map Prod.snd) =
        ((mergePeaks tol acc L).map Prod.fst, (mergePeaks tol acc L).map Prod.snd) := by
  intro L
  induction L with
  | nil => intro acc; rfl
  | cons e rest ih =>
    intro acc
    rw [List.foldl_cons]
    have hfind : (acc.map Prod.fst).findIdx? (fun x => decide (|x - e.1| ≤ tol)) =
        acc.findIdx? (fun pr => decide (|pr.1 - e.1| ≤ tol)) :=
      findIdx?_map Prod.fst _ acc
    cases hcase : acc.findIdx? (fun pr => decide (|pr.1 - e.1| ≤ tol)) with
    | none =>
      have hstep : mergeStep tol (acc.map Prod.fst, acc.map Prod.snd) e =
          ((acc ++ [e]).map Prod.fst, (acc ++ [e]).map Prod.snd) := by
        simp [mergeStep, hfind, hcase]
      rw [hstep, ih (acc ++ [e])]
      have : mergePeaks tol acc (e :: rest) = mergePeaks tol (acc ++ [e]) rest := by
        simp only [mergePeaks, hcase]
      rw [this]
    | some i =>
      obtain ⟨hlt, _⟩ := findIdx?_some_bound _ (0, (0 : ℝ)) acc i hcase
      have hfst : (acc.set i ((acc.getD i (0, 0)).1, (acc.getD i (0, 0)).2 + e.2)).map
          Prod.fst = acc.map Prod.fst := by
        rw [List.map_set]
        have h2 : (acc.getD i (0, 0)).1 = (acc.map Prod.fst).getD i 0 := by
          rw [List.getD_eq_getElem _ _ hlt,
            List.getD_eq_getElem _ _ (by simpa using hlt), List.getElem_map]
        rw [h2, set_getD_self _ _ _ (by simpa using hlt)]
      have hsnd : (acc.set i ((acc.getD i (0, 0)).1, (acc.getD i (0, 0)).2 + e.2)).map
          Prod.snd = (acc.map Prod.snd).set i ((acc.map Prod.snd).getD i 0 + e.2) := by
        rw [List.map_set]
        have : (acc.getD i (0, 0)).2 = (acc.map Prod.snd).getD i 0 := by
          rw [List.getD_eq_getElem _ _ hlt, List.getD_eq_getElem _ _ (by simpa using hlt),
            List.getElem_map]
        rw [this]
      have hstep : mergeStep tol (acc.map Prod.fst, acc.map Prod.snd) e =
          ((acc.set i ((acc.getD i (0, 0)).1, (acc.getD i (0, 0)).2 + e.2)).map Prod.fst,
           (acc.set i ((acc.getD i (0, 0)).1, (acc.getD i (0, 0)).2 + e.2)).map Prod.snd) := by
        simp only [mergeStep, hfind, hcase]
        rw [hfst, hsnd]
      rw [hstep, ih]
      have : mergePeaks tol acc (e :: rest) =
          mergePeaks tol (acc.set i ((acc.getD i (0, 0)).1, (acc.getD i (0, 0)).2 + e.2))
            rest := by
        simp only [mergePeaks, hcase]
      rw [this]

/-- C4: `sum_intensity` scans the `(two_theta, intensity)` entries in order
against the already-merged representatives; an entry within `1e-5` of some
representative has its intensity added to the first such representative
(whose first-seen `two_theta` is kept), otherwise it starts a new merged
peak — i.e. the parallel-list implementation computes exactly the
linear-scan merge `mergePeaks` over paired peaks. -/
theorem xrd_c4 (xs ys : List ℝ) :
    sum_intensity 1e-5 xs ys =
      ((mergePeaks 1e-5 [] (xs.zip ys)).map Prod.fst,
       (mergePeaks 1e-5 [] (xs.zip ys)).map Prod.snd) := by
  have h := mergePeaks_foldl 1e-5 (xs.zip ys) []
  simpa [sum_intensity] using h

lemma merged_pairwise (tol : ℝ) :
    ∀ (L : List (ℝ × ℝ)) (acc : List ℝ × List ℝ),
      acc.1.Pairwise (fun a b => ¬|a - b| ≤ tol) →
      (L.foldl (mergeStep tol) acc).1.Pairwise (fun a b => ¬|a - b| ≤ tol) := by
  intro L
  induction L with
  | nil => intro acc h; exact h
  | cons e rest ih =>
    intro acc h
    rw [List.foldl_cons]
    apply ih
    cases hcase : acc.1.findIdx? (fun x => decide (|x - e.1| ≤ tol)) with
    | some i => simpa [mergeStep, hcase] using h
    | none =>
      have hall := List.findIdx?_eq_none_iff.1 hcase
      have : (acc.1 ++ [e.1]).Pairwise (fun a b => ¬|a - b| ≤ tol) := by
        refine List.pairwise_append.2 ⟨h, List.pairwise_singleton _ _, ?_⟩
        intro a ha b hb
        rw [List.mem_singleton] at hb
        subst hb
        simpa using hall a ha
      simpa [mergeStep, hcase] using this

lemma merged_lengths (tol : ℝ) :
    ∀ (L : List (ℝ × ℝ)) (acc : List ℝ × List ℝ),
      acc.1.length = acc.2.length →
      (L.foldl (mergeStep tol) acc).1.length = (L.foldl (mergeStep tol) acc).2.length := by
  intro L
  induction L with
  | nil => intro acc h; exact h
  | cons e rest ih =>
    intro acc h
    rw [List.foldl_cons]
    apply ih
    cases hcase : acc.1.findIdx? (fun x => decide (|x - e.1| ≤ tol)) with
    | some i => simpa [mergeStep, hcase] using h
    | none => simpa [mergeStep, hcase] using h

lemma foldl_sep_id (tol : ℝ) :
    ∀ (ps : List (ℝ × ℝ)) (A B : List ℝ),
      (A ++ ps.map Prod.fst).Pairwise (fun a b => ¬|a - b| ≤ tol) →
      ps.foldl (mergeStep tol) (A, B) = (A ++ ps.map Prod.fst, B ++ ps.map Prod.snd) := by
  intro ps
  induction ps with
  | nil => intro A B _; simp
  | cons e rest ih =>
    intro A B h
    have hA : ∀ a ∈ A, ¬|a - e.1| ≤ tol := by
      intro a ha
      exact (List.pairwise_append.1 h).2.2 a ha e.1 (by simp)
    have hfind : A.findIdx? (fun x => decide (|x - e.1| ≤ tol)) = none :=
      List.findIdx?_eq_none_iff.2 (fun x hx => by simpa using hA x hx)
    rw [List.foldl_cons]
    have hstep : mergeStep tol (A, B) e = (A ++ [e.1], B ++ [e.2]) := by
      simp [mergeStep, hfind]
    rw [hstep, ih (A ++ [e.1]) (B ++ [e.2]) (by simpa using h)]
    simp

/-- C6: applying the multiplicity merge (tolerance `1e-5`) to the output of
the merge returns that output unchanged, for every input pair of lists. -/
theorem xrd_c6 (xs ys : List ℝ) :
    sum_intensity 1e-5 (sum_intensity 1e-5 xs ys).1 (sum_intensity 1e-5 xs ys).2 =
      sum_intensity 1e-5 xs ys := by
  have hsep : (sum_intensity 1e-5 xs ys).1.Pairwise (fun a b => ¬|a - b| ≤ 1e-5) :=
    merged_pairwise 1e-5 (xs.zip ys) ([], []) List.Pairwise.nil
  have hlen : (sum_intensity 1e-5 xs ys).1.length = (sum_intensity 1e-5 xs ys).2.length :=
    merged_lengths 1e-5 (xs.zip ys) ([], []) rfl
  have h1 : ((sum_intensity 1e-5 xs ys).1.zip (sum_intensity 1e-5 xs ys).2).map Prod.fst =
      (sum_intensity 1e-5 xs ys).1 :=
    List.map_fst_zip _ _ hlen.le
  have h2 : ((sum_intensity 1e-5 xs ys).1.zip (sum_intensity 1e-5 xs ys).2).map Prod.snd =
      (sum_intensity 1e-5 xs ys).2 :=
    List.map_snd_zip _ _ hlen.ge
  have hrun := foldl_sep_id 1e-5 ((sum_intensity 1e-5 xs ys).1.zip (sum_intensity 1e-5 xs ys).2)
    [] [] (by rw [List.nil_append, h1]; exact hsep)
  show ((sum_intensity 1e-5 xs ys).1.zip (sum_intensity 1e-5 xs ys).2).foldl
      (mergeStep 1e-5) ([], []) = sum_intensity 1e-5 xs ys
  rw [hrun, List.nil_append, List.nil_append, h1, h2]

lemma rec_lattice_one {m : XRDModel} (h : m.lattice = 1) (i j : Fin 3) :
    rec_lattice m i j = if i = j then 2 * Real.pi else 0 := by
  rw [rec_lattice, h, inv_one, Matrix.transpose_one]
  rw [Matrix.smul_apply, Matrix.one_apply]
  simp [mul_ite]

lemma vnorm_qvec_one {m : XRDModel} (h : m.lattice = 1) (t : ℤ × ℤ × ℤ) :
    vnorm (qvec m t) =
      2 * Real.pi * Real.sqrt ((t.1 : ℝ) ^ 2 + (t.2.1 : ℝ) ^ 2 + (t.2.2 : ℝ) ^ 2) := by
  have h0 : qvec m t 0 = (t.1 : ℝ) * (2 * Real.pi) := by
    simp [qvec, rec_lattice_one h]
  have h1 : qvec m t 1 = (t.2.1 : ℝ) * (2 * Real.pi) := by
    simp [qvec, rec_lattice_one h]
  have h2 : qvec m t 2 = (t.2.2 : ℝ) * (2 * Real.pi) := by
    simp [qvec, rec_lattice_one h]
  rw [vnorm, h0, h1, h2]
  rw [show ((t.1 : ℝ) * (2 * Real.pi)) ^ 2 + ((t.2.1 : ℝ) * (2 * Real.pi)) ^ 2 +
      ((t.2.2 : ℝ) * (2 * Real.pi)) ^ 2 =
      (2 * Real.pi) ^ 2 * ((t.1 : ℝ) ^ 2 + (t.2.1 : ℝ) ^ 2 + (t.2.2 : ℝ) ^ 2) by ring]
  rw [Real.sqrt_mul (by positivity), Real.sqrt_sq (by positivity)]

lemma vnorm_krow_one0 {m : XRDModel} (h : m.lattice = 1) :
    vnorm (krow m 0) = 2 * Real.pi := by
  have hk : krow m 0 = qvec m (1, 0, 0) := by
    funext j; simp [krow, qvec]
  rw [hk, vnorm_qvec_one h]
  norm_num

lemma vnorm_krow_one1 {m : XRDModel} (h : m.lattice = 1) :
    vnorm (krow m 1) = 2 * Real.pi := by
  have hk : krow m 1 = qvec m (0, 1, 0) := by
    funext j; simp [krow, qvec]
  rw [hk, vnorm_qvec_one h]
  norm_num

lemma vnorm_krow_one2 {m : XRDModel} (h : m.lattice = 1) :
    vnorm (krow m 2) = 2 * Real.pi := by
  have hk : krow m 2 = qvec m (0, 0, 1) := by
    funext j; simp [krow, qvec]
  rw [hk, vnorm_qvec_one h]
  norm_num

lemma sinTwoTheta_krow (m : XRDModel) (t : ℤ × ℤ × ℤ) :
    sinTwoTheta m.wavelength (krow m 0) (krow m 1) (krow m 2) t =
      m.wavelength * (vnorm (qvec m t) / 4 / Real.pi) := rfl

lemma mem_rangeList (m x : ℤ) : x ∈ rangeList m ↔ -m ≤ x ∧ x ≤ m := by
  simp only [rangeList, List.mem_map, List.mem_range]
  constructor
  · rintro ⟨i, hi, rfl⟩
    constructor <;> omega
  · intro hx
    exact ⟨(x + m).toNat, by omega, by omega⟩

lemma mem_cubeList (m : ℤ) (t : ℤ × ℤ × ℤ) :
    t ∈ cubeList m ↔
      (-m ≤ t.1 ∧ t.1 ≤ m) ∧ (-m ≤ t.2.1 ∧ t.2.1 ≤ m) ∧ (-m ≤ t.2.2 ∧ t.2.2 ≤ m) := by
  simp only [cubeList, List.mem_flatMap, List.mem_map, mem_rangeList]
  constructor
  · rintro ⟨a, ha, b, hb, c, hc, rfl⟩
    exact ⟨ha, hb, hc⟩
  · rintro ⟨h1, h2, h3⟩
    exact ⟨t.1, h1, t.2.1, h2, t.2.2, h3, rfl⟩

lemma pairwise_rangeList (m : ℤ) : (rangeList m).Pairwise (· < ·) := by
  rw [rangeList, List.pairwise_map]
  refine (List.pairwise_lt_range _).imp ?_
  intro a b hab
  show -m + (a : ℤ) < -m + (b : ℤ)
  omega

lemma pairwise_cubeList (m : ℤ) : (cubeList m).Pairwise hklLt := by
  rw [cubeList]
  rw [List.flatMap_def, List.pairwise_flatten]
  constructor
  · intro l hl
    rw [List.mem_map] at hl
    obtain ⟨a, _, rfl⟩ := hl
    rw [List.flatMap_def, List.pairwise_flatten]
    constructor
    · intro l2 hl2
      rw [List.mem_map] at hl2
      obtain ⟨b, _, rfl⟩ := hl2
      rw [List.pairwise_map]
      exact (pairwise_rangeList _).imp (fun h => Or.inr ⟨rfl, Or.inr ⟨rfl, h⟩⟩)
    · rw [List.pairwise_map]
      refine (pairwise_rangeList _).imp ?_
      intro b1 b2 hb x hx y hy
      rw [List.mem_map] at hx hy
      obtain ⟨c1, _, rfl⟩ := hx
      obtain ⟨c2, _, rfl⟩ := hy
      exact Or.inr ⟨rfl, Or.inl hb⟩
  · rw [List.pairwise_map]
    refine (pairwise_rangeList _).imp ?_
    intro a1 a2 ha x hx y hy
    rw [List.flatMap_def, List.mem_flatten] at hx hy
    obtain ⟨l1, hl1, hx⟩ := hx
    obtain ⟨l2, hl2, hy⟩ := hy
    rw [List.mem_map] at hl1 hl2
    obtain ⟨b1, _, rfl⟩ := hl1
    obtain ⟨b2, _, rfl⟩ := hl2
    rw [List.mem_map] at hx hy
    obtain ⟨c1, _, rfl⟩ := hx
    obtain ⟨c2, _, rfl⟩ := hy
    exact Or.inl ha

/-- C3 (amended): with no explicit bound the enumeration bound is
`min(5, max over the axes of ceil(4π / (λ·|b_i|)))`; a supplied NONZERO
bound is used verbatim; a supplied bound of 0 is falsy in Python and
triggers auto-derivation exactly like `None`. -/
theorem xrd_c3_amended (wl : ℝ) (k1 k2 k3 : Vec3) (b : ℤ) (hb : b ≠ 0) :
    effBound wl k1 k2 k3 none =
      min 5 (max (max ⌈4 * Real.pi / (wl * vnorm k1)⌉ ⌈4 * Real.pi / (wl * vnorm k2)⌉)
        ⌈4 * Real.pi / (wl * vnorm k3)⌉) ∧
    effBound wl k1 k2 k3 (some b) = b ∧
    effBound wl k1 k2 k3 (some 0) = effBound wl k1 k2 k3 none := by
  have harg : ∀ v : Vec3, 1 / wl / vnorm v * 4 * Real.pi = 4 * Real.pi / (wl * vnorm v) := by
    intro v; ring
  refine ⟨?_, by simp [effBound, hb], by simp [effBound]⟩
  show autoBound wl k1 k2 k3 = _
  rw [autoBound, MAX_INDEX, harg k1, harg k2, harg k3]

/-- Witness for C3 at concrete inputs, discharging the nonzero-bound
hypothesis with `b = 3`. -/
theorem xrd_c3_witness :
    effBound 1 (fun _ => 1) (fun _ => 1) (fun _ => 1) none =
      min 5 (max (max ⌈4 * Real.pi / (1 * vnorm (fun _ => 1))⌉
          ⌈4 * Real.pi / (1 * vnorm (fun _ => 1))⌉)
        ⌈4 * Real.pi / (1 * vnorm (fun _ => 1))⌉) ∧
    effBound 1 (fun _ => 1) (fun _ => 1) (fun _ => 1) (some 3) = 3 ∧
    effBound 1 (fun _ => 1) (fun _ => 1) (fun _ => 1) (some 0) =
      effBound 1 (fun _ => 1) (fun _ => 1) (fun _ => 1) none :=
  xrd_c3_amended 1 (fun _ => 1) (fun _ => 1) (fun _ => 1) 3 (by decide)

lemma autoBound_modelA :
    autoBound modelA.wavelength (krow modelA 0) (krow modelA 1) (krow modelA 2) = 2 := by
  have hl : modelA.lattice = 1 := rfl
  rw [autoBound, vnorm_krow_one0 hl, vnorm_krow_one1 hl, vnorm_krow_one2 hl]
  have hw : modelA.wavelength = 1 := rfl
  rw [hw]
  have harg : (1 : ℝ) / 1 / (2 * Real.pi) * 4 * Real.pi = 2 := by
    have hpi : Real.pi ≠ 0 := Real.pi_ne_zero
    field_simp
    ring
  rw [harg]
  rw [show ⌈(2 : ℝ)⌉ = (2 : ℤ) by
    rw [show (2 : ℝ) = ((2 : ℤ) : ℝ) by norm_num, Int.ceil_intCast]]
  rw [MAX_INDEX]
  decide

lemma autoBound_modelB :
    autoBound modelB.wavelength (krow modelB 0) (krow modelB 1) (krow modelB 2) = 1 := by
  have hl : modelB.lattice = 1 := rfl
  rw [autoBound, vnorm_krow_one0 hl, vnorm_krow_one1 hl, vnorm_krow_one2 hl]
  have hw : modelB.wavelength = 4 * Real.pi := rfl
  rw [hw]
  have harg : (1 : ℝ) / (4 * Real.pi) / (2 * Real.pi) * 4 * Real.pi =
      1 / (2 * Real.pi) := by
    have hpi : Real.pi ≠ 0 := Real.pi_ne_zero
    field_simp
  rw [harg]
  have hceil : ⌈(1 : ℝ) / (2 * Real.pi)⌉ = (1 : ℤ) := by
    rw [Int.ceil_eq_iff]
    constructor
    · norm_num
      positivity
    · rw [Int.cast_one, div_le_one (by positivity)]
      nlinarith [Real.pi_gt_three]
  rw [hceil]
  rw [MAX_INDEX]
  decide

lemma braggA (t : ℤ × ℤ × ℤ) :
    sinTwoTheta modelA.wavelength (krow modelA 0) (krow modelA 1) (krow modelA 2) t =
      Real.sqrt ((t.1 : ℝ) ^ 2 + (t.2.1 : ℝ) ^ 2 + (t.2.2 : ℝ) ^ 2) / 2 := by
  rw [sinTwoTheta_krow, vnorm_qvec_one (show modelA.lattice = 1 from rfl)]
  show (1 : ℝ) * _ = _
  have hpi : Real.pi ≠ 0 := Real.pi_ne_zero
  field_simp
  ring

lemma braggB (t : ℤ × ℤ × ℤ) :
    sinTwoTheta modelB.wavelength (krow modelB 0) (krow modelB 1) (krow modelB 2) t =
      2 * Real.pi * Real.sqrt ((t.1 : ℝ) ^ 2 + (t.2.1 : ℝ) ^ 2 + (t.2.2 : ℝ) ^ 2) := by
  rw [sinTwoTheta_krow, vnorm_qvec_one (show modelB.lattice = 1 from rfl)]
  show (4 * Real.pi) * _ = _
  have hpi : Real.pi ≠ 0 := Real.pi_ne_zero
  field_simp

lemma effBound_modelA_some0 :
    effBound modelA.wavelength (krow modelA 0) (krow modelA 1) (krow modelA 2)
      (some 0) = 2 := by
  simp [effBound, autoBound_modelA]

lemma mem_kvec_100 :
    ((1, 0, 0) : ℤ × ℤ × ℤ) ∈ get_kvec_list modelA.wavelength (krow modelA 0)
      (krow modelA 1) (krow modelA 2) (some 0) := by
  rw [get_kvec_list, effBound_modelA_some0, List.mem_filter]
  constructor
  · exact (mem_cubeList 2 (1, 0, 0)).2 (by norm_num)
  · simp only [decide_eq_true_eq]
    rw [braggA]
    norm_num [Real.sqrt_one]

/-- C2 (amended): for every NONZERO supplied bound, `get_kvec_list` returns
exactly the integer triples of the cube `[-bound, bound]^3` satisfying
`-1 ≤ λ|q|/(4π) ≤ 1`, in enumeration order (`h` outer, `k` middle, `l`
inner, each ascending); a supplied bound of `0` is falsy in Python and is
replaced by the auto-derived bound, so the claim fails for it as stated. -/
theorem xrd_c2_amended (wl : ℝ) (k1 k2 k3 : Vec3) (b : ℤ) (hb : b ≠ 0) :
    (∀ t : ℤ × ℤ × ℤ, t ∈ get_kvec_list wl k1 k2 k3 (some b) ↔
      ((-b ≤ t.1 ∧ t.1 ≤ b) ∧ (-b ≤ t.2.1 ∧ t.2.1 ≤ b) ∧ (-b ≤ t.2.2 ∧ t.2.2 ≤ b)) ∧
      (-1 ≤ sinTwoTheta wl k1 k2 k3 t ∧ sinTwoTheta wl k1 k2 k3 t ≤ 1)) ∧
    (get_kvec_list wl k1 k2 k3 (some b)).Pairwise hklLt := by
  have heff : effBound wl k1 k2 k3 (some b) = b := by simp [effBound, hb]
  constructor
  · intro t
    rw [get_kvec_list, heff, List.mem_filter, mem_cubeList]
    simp only [decide_eq_true_eq]
  · rw [get_kvec_list]
    exact (pairwise_cubeList _).filter _

/-- Witness for C2 (amended) at concrete inputs with bound `1`. -/
theorem xrd_c2_witness :
    (∀ t : ℤ × ℤ × ℤ,
      t ∈ get_kvec_list 1 (fun _ => 1) (fun _ => 1) (fun _ => 1) (some 1) ↔
      ((-1 ≤ t.1 ∧ t.1 ≤ 1) ∧ (-1 ≤ t.2.1 ∧ t.2.1 ≤ 1) ∧ (-1 ≤ t.2.2 ∧ t.2.2 ≤ 1)) ∧
      (-1 ≤ sinTwoTheta 1 (fun _ => 1) (fun _ => 1) (fun _ => 1) t ∧
        sinTwoTheta 1 (fun _ => 1) (fun _ => 1) (fun _ => 1) t ≤ 1)) ∧
    (get_kvec_list 1 (fun _ => 1) (fun _ => 1) (fun _ => 1) (some 1)).Pairwise hklLt :=
  xrd_c2_amended 1 (fun _ => 1) (fun _ => 1) (fun _ => 1) 1 (by decide)

/-- Counterexample to C2 as stated: with supplied bound `0`, the returned
sequence contains the triple `(1,0,0)`, which lies outside the cube
`[-0, 0]^3` (Python's falsy `0` re-derives the bound). -/
theorem xrd_c2_counterexample :
    ((1, 0, 0) : ℤ × ℤ × ℤ) ∈ get_kvec_list modelA.wavelength (krow modelA 0)
      (krow modelA 1) (krow modelA 2) (some 0) ∧
    ¬(-(0 : ℤ) ≤ ((1, 0, 0) : ℤ × ℤ × ℤ).1 ∧ ((1, 0, 0) : ℤ × ℤ × ℤ).1 ≤ (0 : ℤ)) :=
  ⟨mem_kvec_100, by decide⟩

/-- Counterexample to C3 as stated: the explicitly supplied bound `0` is
NOT used verbatim — the returned sequence contains `(1,0,0)` although the
bound-0 cube enumerates only `(0,0,0)`. -/
theorem xrd_c3_counterexample :
    ((1, 0, 0) : ℤ × ℤ × ℤ) ∈ get_kvec_list modelA.wavelength (krow modelA 0)
      (krow modelA 1) (krow modelA 2) (some 0) ∧
    ((1, 0, 0) : ℤ × ℤ × ℤ) ∉ cubeList 0 :=
  ⟨mem_kvec_100, by decide⟩

lemma vnorm_qvec_zero (m : XRDModel) : vnorm (qvec m (0, 0, 0)) = 0 := by
  have hq : qvec m (0, 0, 0) = fun _ => 0 := by
    funext j; simp [qvec]
  rw [hq, vnorm]
  norm_num

lemma xrdStep_zero (m : XRDModel) : xrdStep m (0, 0, 0) = none := by
  rw [xrdStep]
  simp only [vnorm_qvec_zero, zero_div, mul_zero, Real.arcsin_zero]
  norm_num

lemma xrdStep_fst (m : XRDModel) (t : ℤ × ℤ × ℤ) (r : (ℤ × ℤ × ℤ) × ℝ × ℝ)
    (h : xrdStep m t = some r) : r.1 = t := by
  simp only [xrdStep] at h
  split_ifs at h
  obtain rfl := Option.some.inj h
  rfl

lemma filterMap_erase_of_none {α β : Type _} [BEq α] [LawfulBEq α] (f : α → Option β)
    (a : α) (hf : f a = none) :
    ∀ l : List α, l.filterMap f = (l.erase a).filterMap f := by
  intro l
  induction l with
  | nil => rfl
  | cons x xs ih =>
    by_cases hx : x = a
    · subst hx
      rw [List.erase_cons_head, List.filterMap_cons, hf]
    · rw [List.erase_cons_tail (by simpa using hx), List.filterMap_cons,
        List.filterMap_cons, ih]

/-- C10: for a model whose wavelength is so large that no triple other than
`(0,0,0)` satisfies the Bragg filter, `get_xrd` returns an empty pattern:
empty reflection sequence and empty parallel two-theta and intensity
sequences (and no error: the embedding is total). -/
theorem xrd_c10 (m : XRDModel)
    (hb : ∀ t : ℤ × ℤ × ℤ, t ≠ (0, 0, 0) →
      ¬(-1 ≤ sinTwoTheta m.wavelength (krow m 0) (krow m 1) (krow m 2) t ∧
        sinTwoTheta m.wavelength (krow m 0) (krow m 1) (krow m 2) t ≤ 1)) :
    get_xrd m = [] ∧ twotheta_list m = [] ∧ intensity_list m = [] := by
  have hstep : ∀ t ∈ kvecListOf m, xrdStep m t = none := by
    intro t ht
    rw [kvecListOf, get_kvec_list, List.mem_filter] at ht
    obtain ⟨-, hcond⟩ := ht
    rw [decide_eq_true_eq] at hcond
    have ht0 : t = (0, 0, 0) := by
      by_contra hne
      exact hb t hne hcond
    subst ht0
    exact xrdStep_zero m
  have h1 : get_xrd m = [] := List.filterMap_eq_nil_iff.2 hstep
  exact ⟨h1, by rw [twotheta_list, h1]; rfl, by rw [intensity_list, h1]; rfl⟩

lemma sq_sum_ge_one (t : ℤ × ℤ × ℤ) (h : t ≠ (0, 0, 0)) :
    (1 : ℝ) ≤ (t.1 : ℝ) ^ 2 + (t.2.1 : ℝ) ^ 2 + (t.2.2 : ℝ) ^ 2 := by
  obtain ⟨a, b, c⟩ := t
  have hz : (1 : ℤ) ≤ a ^ 2 + b ^ 2 + c ^ 2 := by
    rcases eq_or_ne a 0 with rfl | ha
    · rcases eq_or_ne b 0 with rfl | hb
      · rcases eq_or_ne c 0 with rfl | hc
        · exact absurd rfl h
        · have : 1 ≤ c ^ 2 := by
            rcases lt_or_gt_of_ne hc with hc' | hc' <;> nlinarith
          nlinarith
      · have : 1 ≤ b ^ 2 := by
          rcases lt_or_gt_of_ne hb with hb' | hb' <;> nlinarith
        nlinarith [sq_nonneg c]
    · have : 1 ≤ a ^ 2 := by
        rcases lt_or_gt_of_ne ha with ha' | ha' <;> nlinarith
      nlinarith [sq_nonneg b, sq_nonneg c]
  exact_mod_cast hz

/-- Witness for C10: the identity-lattice model with wavelength `4π`, for
which every nonzero triple violates the Bragg filter, yields the empty
pattern. -/
theorem xrd_c10_witness :
    get_xrd modelB = [] ∧ twotheta_list modelB = [] ∧ intensity_list modelB = [] := by
  refine xrd_c10 modelB ?_
  intro t hne hcond
  obtain ⟨-, h2⟩ := hcond
  rw [braggB] at h2
  have hn := sq_sum_ge_one t hne
  have hs : (1 : ℝ) ≤ Real.sqrt ((t.1 : ℝ) ^ 2 + (t.2.1 : ℝ) ^ 2 + (t.2.2 : ℝ) ^ 2) :=
    Real.one_le_sqrt.2 hn
  nlinarith [Real.pi_gt_three]

/-- C8: a candidate triple from the enumeration whose diffraction angle
`theta = arcsin(wavelength * y)` is exactly `0` or exactly `pi/2` emits no
reflection record and raises no error (its loop iteration yields nothing),
and the computation continues with the remaining triples: the profile is
the one obtained by processing the candidate list with that triple removed. -/
theorem xrd_c8 (m : XRDModel) (t : ℤ × ℤ × ℤ) (ht : t ∈ kvecListOf m)
    (hdeg : Real.arcsin (m.wavelength * (vnorm (qvec m t) / 4 / Real.pi)) = 0 ∨
            Real.arcsin (m.wavelength * (vnorm (qvec m t) / 4 / Real.pi)) = Real.pi / 2) :
    xrdStep m t = none ∧ (∀ r ∈ get_xrd m, r.1 ≠ t) ∧
      get_xrd m = ((kvecListOf m).erase t).filterMap (xrdStep m) := by
  have hcond : -1 ≤ m.wavelength * (vnorm (qvec m t) / 4 / Real.pi) ∧
      m.wavelength * (vnorm (qvec m t) / 4 / Real.pi) ≤ 1 := by
    rw [kvecListOf, get_kvec_list, List.mem_filter] at ht
    have h2 := ht.2
    rw [decide_eq_true_eq, sinTwoTheta_krow] at h2
    exact h2
  have hnone : xrdStep m t = none := by
    simp only [xrdStep]
    rw [if_pos hcond, if_pos hdeg.symm]
  refine ⟨hnone, ?_, ?_⟩
  · intro r hr hEq
    rw [get_xrd, List.mem_filterMap] at hr
    obtain ⟨t', ht', hstep⟩ := hr
    have hft := xrdStep_fst m t' r hstep
    rw [hft.symm.trans hEq] at hstep
    rw [hnone] at hstep
    exact Option.noConfusion hstep
  · rw [get_xrd, filterMap_erase_of_none (xrdStep m) t hnone (kvecListOf m)]

lemma mem_kvec_modelB_zero : ((0, 0, 0) : ℤ × ℤ × ℤ) ∈ kvecListOf modelB := by
  rw [kvecListOf, get_kvec_list]
  rw [show effBound modelB.wavelength (krow modelB 0) (krow modelB 1) (krow modelB 2)
      none = 1 from autoBound_modelB]
  rw [List.mem_filter]
  constructor
  · exact (mem_cubeList 1 (0, 0, 0)).2 (by norm_num)
  · simp only [decide_eq_true_eq]
    rw [braggB]
    norm_num [Real.sqrt_zero]

/-- Witness for C8: on the identity-lattice model with wavelength `4π` the
candidate `(0,0,0)` has `theta = arcsin 0 = 0` and is silently skipped. -/
theorem xrd_c8_witness :
    xrdStep modelB (0, 0, 0) = none ∧ (∀ r ∈ get_xrd modelB, r.1 ≠ (0, 0, 0)) ∧
      get_xrd modelB = ((kvecListOf modelB).erase (0, 0, 0)).filterMap (xrdStep modelB) :=
  xrd_c8 modelB (0, 0, 0) mem_kvec_modelB_zero
    (Or.inl (by rw [vnorm_qvec_zero]; norm_num [Real.arcsin_zero]))

lemma length_sortedDesc (ys : List ℝ) : (sortedDesc ys).length = ys.length := by
  rw [sortedDesc, List.length_reverse, List.length_insertionSort]

lemma length_argsortR (ys : List ℝ) : (argsortR ys).length = ys.length := by
  rw [argsortR, List.length_insertionSort, List.length_range]

lemma length_xSortedDesc (xs ys : List ℝ) : (xSortedDesc xs ys).length = ys.length := by
  rw [xSortedDesc, List.length_reverse, List.length_map, length_argsortR]

lemma map_getD_range (ys : List ℝ) :
    (List.range ys.length).map (fun i => ys.getD i 0) = ys := by
  apply List.ext_getElem (by simp)
  intro n h1 h2
  simp only [List.getElem_map, List.getElem_range]
  exact List.getD_eq_getElem ys 0 h2

lemma argsort_perm (ys : List ℝ) : (argsortR ys).Perm (List.range ys.length) :=
  List.perm_insertionSort _ _

lemma argsort_map_getD (ys : List ℝ) :
    (argsortR ys).map (fun i => ys.getD i 0) = ys.insertionSort (· ≤ ·) := by
  haveI hT : IsTotal ℕ (fun i j => ys.getD i 0 ≤ ys.getD j 0) := ⟨fun a b => le_total _ _⟩
  haveI hR : IsTrans ℕ (fun i j => ys.getD i 0 ≤ ys.getD j 0) :=
    ⟨fun a b c hab hbc => le_trans hab hbc⟩
  have p1 : ((argsortR ys).map (fun i => ys.getD i 0)).Perm ys := by
    have hp := (argsort_perm ys).map (fun i => ys.getD i 0)
    rwa [map_getD_range ys] at hp
  have p2 : ((argsortR ys).map (fun i => ys.getD i 0)).Perm (ys.insertionSort (· ≤ ·)) :=
    p1.trans (List.perm_insertionSort _ _).symm
  have s1 : ((argsortR ys).map (fun i => ys.getD i 0)).Sorted (· ≤ ·) := by
    have hs : (argsortR ys).Sorted (fun i j => ys.getD i 0 ≤ ys.getD j 0) :=
      List.sorted_insertionSort _ _
    exact hs.map _ (fun a b hab => hab)
  exact List.eq_of_perm_of_sorted p2 s1 (List.sorted_insertionSort _ _)

lemma zip_reverse {α β : Type _} :
    ∀ (A : List α) (B : List β), A.length = B.length →
      A.reverse.zip B.reverse = (A.zip B).reverse := by
  intro A
  induction A with
  | nil =>
    intro B h
    cases B with
    | nil => rfl
    | cons b bs => simp at h
  | cons a as ih =>
    intro B h
    cases B with
    | nil => simp at h
    | cons b bs =>
      have hlen : as.length = bs.length := by simpa using h
      simp only [List.reverse_cons]
      rw [List.zip_append (by simpa using hlen), ih bs hlen]
      simp

lemma zipWith_pairs_map (g : ℝ → ℝ) :
    ∀ A B : List ℝ,
      (List.zipWith (fun yv xv => (yv, xv, g xv)) A B).map (fun r => (r.1, r.2.1)) =
        A.zip B := by
  intro A
  induction A with
  | nil => intro B; rfl
  | cons a as ih =>
    intro B
    cases B with
    | nil => rfl
    | cons b bs => simp [ih]

lemma zipWith_pairs_d (g : ℝ → ℝ) :
    ∀ A B : List ℝ, ∀ r ∈ List.zipWith (fun yv xv => (yv, xv, g xv)) A B,
      r.2.2 = g r.2.1 := by
  intro A
  induction A with
  | nil => intro B r hr; simp at hr
  | cons a as ih =>
    intro B r hr
    cases B with
    | nil => simp at hr
    | cons b bs =>
      rw [List.zipWith_cons_cons] at hr
      rcases List.mem_cons.1 hr with rfl | hr
      · rfl
      · exact ih bs r hr

lemma range_map_pair (xs ys : List ℝ) (h : ys.length = xs.length) :
    (List.range ys.length).map (fun i => (ys.getD i 0, xs.getD i 0)) = ys.zip xs := by
  apply List.ext_getElem
  · simp [List.length_zip, h]
  · intro n h1 h2
    have hn : n < ys.length := by simpa using h1
    simp only [List.getElem_map, List.getElem_range, List.getElem_zip]
    rw [List.getD_eq_getElem ys 0 hn, List.getD_eq_getElem xs 0 (h ▸ hn)]

/-- C7: the d-spacing report has header `intensity two_theta d_spacing`,
one `(intensity, two_theta, d)` row per merged peak (the rows' (intensity,
two_theta) pairs are a permutation of the normalized merged peaks), rows
are sorted by descending normalized intensity, and each row's `d` equals
`wavelength / (2*sin(two_theta*pi/360))` for that row's `two_theta`. -/
theorem xrd_c7 (m : XRDModel) :
    (get_dspacing m).header = "intensity two_theta d_spacing" ∧
    (get_dspacing m).rows.Pairwise (fun r s => s.1 ≤ r.1) ∧
    (∀ r ∈ (get_dspacing m).rows,
      r.2.2 = m.wavelength / (2 * Real.sin (r.2.1 * Real.pi / 360))) ∧
    ((get_dspacing m).rows.map (fun r => (r.1, r.2.1))).Perm
      ((normalize (mergedPattern m).2 100).zip (mergedPattern m).1) := by
  have hrows : (get_dspacing m).rows =
      List.zipWith
        (fun yv xv => (yv, xv, m.wavelength / (2 * Real.sin (xv * Real.pi / 360))))
        (sortedDesc (normalize (mergedPattern m).2 100))
        (xSortedDesc (mergedPattern m).1 (normalize (mergedPattern m).2 100)) := rfl
  have hlen0 : (mergedPattern m).1.length = (mergedPattern m).2.length :=
    merged_lengths 1e-5 _ _ rfl
  have hlen1 : (normalize (mergedPattern m).2 100).length = (mergedPattern m).2.length := by
    simp [normalize]
  have hlenY : (sortedDesc (normalize (mergedPattern m).2 100)).length =
      (normalize (mergedPattern m).2 100).length := length_sortedDesc _
  have hlenX : (xSortedDesc (mergedPattern m).1 (normalize (mergedPattern m).2 100)).length =
      (normalize (mergedPattern m).2 100).length := length_xSortedDesc _ _
  have hpairs : (get_dspacing m).rows.map (fun r => (r.1, r.2.1)) =
      (sortedDesc (normalize (mergedPattern m).2 100)).zip
        (xSortedDesc (mergedPattern m).1 (normalize (mergedPattern m).2 100)) := by
    rw [hrows, zipWith_pairs_map]
  have hzipRev : (sortedDesc (normalize (mergedPattern m).2 100)).zip
      (xSortedDesc (mergedPattern m).1 (normalize (mergedPattern m).2 100)) =
      (((normalize (mergedPattern m).2 100).insertionSort (· ≤ ·)).zip
        ((argsortR (normalize (mergedPattern m).2 100)).map
          (fun i => (mergedPattern m).1.getD i 0))).reverse := by
    rw [sortedDesc, xSortedDesc]
    refine zip_reverse _ _ ?_
    rw [List.length_insertionSort, List.length_map, length_argsortR]
  have hzipMap : (((normalize (mergedPattern m).2 100).insertionSort (· ≤ ·)).zip
      ((argsortR (normalize (mergedPattern m).2 100)).map
        (fun i => (mergedPattern m).1.getD i 0))) =
      (argsortR (normalize (mergedPattern m).2 100)).map
        (fun i => ((normalize (mergedPattern m).2 100).getD i 0,
          (mergedPattern m).1.getD i 0)) := by
    rw [← argsort_map_getD, List.zip_map']
  refine ⟨rfl, ?_, ?_, ?_⟩
  · -- sorted by descending intensity
    have hfst : (get_dspacing m).rows.map (fun r => r.1) =
        sortedDesc (normalize (mergedPattern m).2 100) := by
      have : (get_dspacing m).rows.map (fun r => r.1) =
          ((get_dspacing m).rows.map (fun r => (r.1, r.2.1))).map Prod.fst := by
        rw [List.map_map]; rfl
      rw [this, hpairs]
      exact List.map_fst_zip _ _ (le_of_eq (hlenY.trans hlenX.symm))
    have hdesc : (sortedDesc (normalize (mergedPattern m).2 100)).Pairwise
        (fun a b => b ≤ a) := by
      rw [sortedDesc]
      exact List.pairwise_reverse.2 (List.sorted_insertionSort _ _)
    rw [← hfst] at hdesc
    exact (List.pairwise_map.1 hdesc)
  · -- each row's d from its own two_theta
    intro r hr
    rw [hrows] at hr
    exact zipWith_pairs_d _ _ _ r hr
  · -- one row per merged peak (permutation)
    rw [hpairs, hzipRev, hzipMap]
    refine (List.reverse_perm _).trans ?_
    refine ((argsort_perm _).map _).trans ?_
    rw [range_map_pair _ _ (hlen1.trans hlen0.symm)]

lemma sum_flatMap {α M : Type _} [AddCommMonoid M] (f : α → List M) :
    ∀ l : List α, (l.flatMap f).sum = (l.map (fun a => (f a).sum)).sum := by
  intro l
  induction l with
  | nil => rfl
  | cons x xs ih => simp [List.flatMap_cons, List.sum_append, ih]

lemma sum_filter_or {α M : Type _} [AddCommMonoid M] (v : α → M) (p q : α → Bool)
    (hdisj : ∀ a, ¬(p a = true ∧ q a = true)) :
    ∀ l : List α,
      ((l.filter p).map v).sum + ((l.filter q).map v).sum =
      ((l.filter (fun a => p a || q a)).map v).sum := by
  intro l
  induction l with
  | nil => simp
  | cons x xs ih =>
    by_cases hp : p x = true
    · have hq : ¬q x = true := fun h => hdisj x ⟨hp, h⟩
      simp only [List.filter_cons]
      rw [if_pos hp, if_neg hq, if_pos (by simp [hp])]
      simp only [List.map_cons, List.sum_cons]
      rw [add_assoc, ih]
    · by_cases hq : q x = true
      · simp only [List.filter_cons]
        rw [if_neg hp, if_pos hq, if_pos (by simp [hq])]
        simp only [List.map_cons, List.sum_cons]
        rw [add_left_comm, ih]
      · simp only [List.filter_cons]
        rw [if_neg hp, if_neg hq, if_neg (by simp [hp, hq]), ih]

lemma sum_groups {α κ M : Type _} [DecidableEq κ] [AddCommMonoid M]
    (key : α → κ) (v : α → M) (l : List α) :
    ∀ E : List κ, E.Nodup →
      ((E.map (fun e => ((l.filter (fun a => decide (key a = e))).map v).sum)).sum) =
      ((l.filter (fun a => decide (key a ∈ E))).map v).sum := by
  intro E
  induction E with
  | nil =>
    intro _
    simp
  | cons e E ih =>
    intro hnd
    obtain ⟨he, hnd'⟩ := List.nodup_cons.1 hnd
    rw [List.map_cons, List.sum_cons, ih hnd']
    have hdisj : ∀ a, ¬((decide (key a = e)) = true ∧ (decide (key a ∈ E)) = true) := by
      rintro a ⟨h1, h2⟩
      rw [decide_eq_true_eq] at h1 h2
      exact he (h1 ▸ h2)
    rw [sum_filter_or v _ _ hdisj l]
    congr 1
    congr 1
    apply List.filter_congr
    intro a _
    simp [List.mem_cons]

lemma sFactorList_sum (m : XRDModel) (t : ℤ × ℤ × ℤ) (y : ℝ) :
    (sFactorList m t y).sum =
      (m.atoms.map (fun atom =>
        ((atomFormFactor (m.form atom.1) y : ℝ) : ℂ) *
          Complex.exp (2 * Complex.I * (Real.pi : ℂ) *
            ((dotPosPlane atom.2 t : ℝ) : ℂ)))).sum := by
  rw [sFactorList, sum_flatMap]
  have hinner : ∀ e : String,
      ((m.atoms.filter (fun atom => decide (atom.1 = e))).map (fun atom =>
        ((atomFormFactor (m.form e) y : ℝ) : ℂ) *
          Complex.exp (2 * Complex.I * (Real.pi : ℂ) *
            ((dotPosPlane atom.2 t : ℝ) : ℂ)))).sum =
      ((m.atoms.filter (fun atom => decide (atom.1 = e))).map (fun atom =>
        ((atomFormFactor (m.form atom.1) y : ℝ) : ℂ) *
          Complex.exp (2 * Complex.I * (Real.pi : ℂ) *
            ((dotPosPlane atom.2 t : ℝ) : ℂ)))).sum := by
    intro e
    congr 1
    apply List.map_congr_left
    intro a ha
    have ha1 : a.1 = e := by simpa using (List.mem_filter.1 ha).2
    rw [ha1]
  simp only [hinner]
  rw [sum_groups Prod.fst _ m.atoms _ (List.nodup_dedup _)]
  congr 1
  congr 1
  apply List.filter_eq_self.2
  intro a ha
  rw [decide_eq_true_eq, List.mem_dedup]
  exact List.mem_map_of_mem Prod.fst ha

/-- C1: every record emitted by `get_xrd` carries
`intensity = |F|^2 * LP` with `F` the sum over every atom of
`f(element(atom), y) * exp(2 pi i dot(position(atom), (h,k,l)))`,
`y = |q|/(4 pi)`, `theta = arcsin(wavelength * y)`,
`LP = (1 + cos(2 theta)^2) / (8 sin(theta)^2 cos(theta))`, and
`two_theta = 2 * theta * 180 / pi`. -/
theorem xrd_c1 (m : XRDModel) (r : (ℤ × ℤ × ℤ) × ℝ × ℝ) (hr : r ∈ get_xrd m) :
    r.2.2 = Complex.abs (specStructFactor m r.1) ^ 2 * specLP (specTheta m r.1) ∧
    r.2.1 = 2 * specTheta m r.1 * 180 / Real.pi := by
  rw [get_xrd, List.mem_filterMap] at hr
  obtain ⟨t, ht, hstep⟩ := hr
  simp only [xrdStep] at hstep
  split_ifs at hstep with h1 h2
  obtain rfl := Option.some.inj hstep
  have hy : vnorm (qvec m t) / 4 / Real.pi = vnorm (qvec m t) / (4 * Real.pi) :=
    div_div _ _ _
  have hexp : ∀ d : ℝ,
      Complex.exp (2 * Complex.I * (Real.pi : ℂ) * (d : ℂ)) =
        Complex.exp (2 * (Real.pi : ℂ) * Complex.I * (d : ℂ)) := by
    intro d
    rw [show (2 : ℂ) * Complex.I * (Real.pi : ℂ) = 2 * (Real.pi : ℂ) * Complex.I by ring]
  constructor
  · show Complex.abs (sFactorList m t (vnorm (qvec m t) / 4 / Real.pi)).sum ^ 2 *
        ((1 + Real.cos (Real.arcsin (m.wavelength * (vnorm (qvec m t) / 4 / Real.pi)) * 2) ^ 2) /
         (8 * Real.sin (Real.arcsin (m.wavelength * (vnorm (qvec m t) / 4 / Real.pi))) ^ 2 *
           Real.cos (Real.arcsin (m.wavelength * (vnorm (qvec m t) / 4 / Real.pi))))) = _
    rw [sFactorList_sum, specStructFactor, specLP, specTheta, specY, hy]
    simp only [hexp]
    rw [mul_comm (Real.arcsin (m.wavelength * (vnorm (qvec m t) / (4 * Real.pi)))) 2]
  · show 2 * 180 / Real.pi *
        Real.arcsin (m.wavelength * (vnorm (qvec m t) / 4 / Real.pi)) = _
    rw [specTheta, specY, hy]
    ring

lemma sqrt3_le_two : Real.sqrt 3 ≤ 2 := by
  have h := Real.sqrt_le_sqrt (show (3 : ℝ) ≤ 4 by norm_num)
  rwa [show (4 : ℝ) = 2 ^ 2 by norm_num, Real.sqrt_sq (by norm_num : (0 : ℝ) ≤ 2)] at h

lemma mem_kvec_modelA_111 : ((-1, -1, -1) : ℤ × ℤ × ℤ) ∈ kvecListOf modelA := by
  rw [kvecListOf, get_kvec_list]
  rw [show effBound modelA.wavelength (krow modelA 0) (krow modelA 1) (krow modelA 2)
      none = 2 from autoBound_modelA]
  rw [List.mem_filter]
  constructor
  · exact (mem_cubeList 2 (-1, -1, -1)).2 (by norm_num)
  · simp only [decide_eq_true_eq]
    rw [braggA]
    norm_num
    constructor
    · linarith [Real.sqrt_nonneg 3]
    · linarith [sqrt3_le_two]

lemma hy_A111 : vnorm (qvec modelA (-1, -1, -1)) / 4 / Real.pi = Real.sqrt 3 / 2 := by
  rw [vnorm_qvec_one (show modelA.lattice = 1 from rfl)]
  norm_num
  have hpi := Real.pi_ne_zero
  field_simp
  ring

lemma xrdStep_modelA_111 :
    xrdStep modelA (-1, -1, -1) = some ((-1, -1, -1), 120, 125 / 12) := by
  have hw : modelA.wavelength = 1 := rfl
  have harc : Real.arcsin (Real.sqrt 3 / 2) = Real.pi / 3 := by
    rw [← Real.sin_pi_div_three]
    exact Real.arcsin_sin (by linarith [Real.pi_pos]) (by linarith [Real.pi_pos])
  simp only [xrdStep, hy_A111, hw, one_mul]
  rw [if_pos (show -1 ≤ Real.sqrt 3 / 2 ∧ Real.sqrt 3 / 2 ≤ 1 from
    ⟨by linarith [Real.sqrt_nonneg 3], by linarith [sqrt3_le_two]⟩)]
  rw [harc]
  rw [if_neg (show ¬(Real.pi / 3 = Real.pi / 2 ∨ Real.pi / 3 = 0) from by
    rintro (h | h)
    · linarith [Real.pi_pos]
    · linarith [Real.pi_pos])]
  have hsf : (sFactorList modelA (-1, -1, -1) (Real.sqrt 3 / 2)).sum = ((5 : ℝ) : ℂ) := by
    rw [sFactorList]
    have hdd : ((modelA.atoms.map Prod.fst).dedup) = ["X"] := by
      show (["X"] : List String).dedup = ["X"]
      rw [List.dedup_cons_of_not_mem (by simp), List.dedup_nil]
    rw [hdd, List.flatMap_cons, List.flatMap_nil, List.append_nil]
    have hfil : modelA.atoms.filter (fun atom => decide (atom.1 = "X")) = modelA.atoms := by
      show List.filter _ [("X", fun _ => (0 : ℝ))] = [("X", fun _ => (0 : ℝ))]
      simp
    rw [hfil]
    show (List.map _ [("X", fun _ => (0 : ℝ))]).sum = _
    rw [List.map_cons, List.map_nil, List.sum_cons, List.sum_nil, add_zero]
    have hdot : dotPosPlane (fun _ => (0 : ℝ)) (-1, -1, -1) = 0 := by
      simp [dotPosPlane]
    have hform : atomFormFactor (modelA.form "X") (Real.sqrt 3 / 2) = 5 := by
      show atomFormFactor (formC "X") (Real.sqrt 3 / 2) = 5
      simp [atomFormFactor, formC]
    rw [hdot, hform]
    simp
  have habs : Complex.abs ((5 : ℝ) : ℂ) = 5 := by
    rw [Complex.abs_ofReal]
    norm_num
  have hlp : (1 + Real.cos (Real.pi / 3 * 2) ^ 2) /
      (8 * Real.sin (Real.pi / 3) ^ 2 * Real.cos (Real.pi / 3)) = 5 / 12 := by
    rw [mul_comm (Real.pi / 3) 2, Real.cos_two_mul, Real.cos_pi_div_three,
      Real.sin_pi_div_three]
    rw [show ((Real.sqrt 3 / 2) ^ 2 : ℝ) = 3 / 4 by
      rw [div_pow, Real.sq_sqrt (by norm_num : (0 : ℝ) ≤ 3)]
      norm_num]
    norm_num
  have htt : 2 * 180 / Real.pi * (Real.pi / 3) = 120 := by
    have hpi := Real.pi_ne_zero
    field_simp
    ring
  rw [hsf, habs, hlp, htt]
  norm_num

lemma mem_profile_A :
    ((((-1 : ℤ), (-1 : ℤ), (-1 : ℤ)), (120 : ℝ), (125 / 12 : ℝ)) :
      (ℤ × ℤ × ℤ) × ℝ × ℝ) ∈ get_xrd modelA := by
  rw [get_xrd, List.mem_filterMap]
  exact ⟨(-1, -1, -1), mem_kvec_modelA_111, xrdStep_modelA_111⟩

/-- Witness for C1: on the identity-lattice model with wavelength 1 and a
single atom at the origin with constant form factor 5, the plane
`(-1,-1,-1)` is emitted with `two_theta = 120` and `intensity = 125/12 =
|5|^2 * (5/12)`, and the claim's formulas hold there. -/
theorem xrd_c1_witness :
    (((((-1 : ℤ), (-1 : ℤ), (-1 : ℤ)), (120 : ℝ), (125 / 12 : ℝ)) :
        (ℤ × ℤ × ℤ) × ℝ × ℝ) ∈ get_xrd modelA) ∧
    ((125 / 12 : ℝ) =
        Complex.abs (specStructFactor modelA (-1, -1, -1)) ^ 2 *
          specLP (specTheta modelA (-1, -1, -1)) ∧
      (120 : ℝ) = 2 * specTheta modelA (-1, -1, -1) * 180 / Real.pi) :=
  ⟨mem_profile_A, xrd_c1 modelA _ mem_profile_A⟩

end XRDsim

end
